import Mathlib

/-!
Shallow embedding of the workflow execution service of the WhiteWhale AI
platform backend (`server.js` together with `middleware/validation.js`).

The embedding follows the JavaScript source:
  * JS strings are Lean `String`s; `s.replace(new RegExp(lit, 'g'), v)` on a
    literal pattern is modelled by `replaceAll` (all non-overlapping
    occurrences, left to right), and `s.includes(p)` by `includes`.
  * The `Map` used for the response cache is modelled as an association list
    in insertion order: `Map.set` updates an existing key in place and
    appends a fresh key, `Map.delete` removes the entry, `Map.keys()`
    enumerates in insertion order.
  * `Date.now()` is an explicit `now : Nat` (milliseconds) parameter.
  * JS truthiness of strings ("" is falsy) is modelled explicitly where the
    source relies on it (`a || b` on strings, `if (geminiResponse)`).
  * The asynchronous handler is modelled as a function of the request, the
    environment key, the cache state, the current time and the outcome the
    upstream client would produce; it returns the response together with the
    new cache state and the number of upstream-client invocations.
  * The `validateWithJoi(workflowSchema)` middleware in front of the handler
    is modelled by an acceptance predicate and a sanitization function
    (`Joi.string()` rejects empty strings; `stripUnknown` strips
    pattern-unmatched keys; `.trim()` fields are trimmed and defaulted), and
    the full endpoint is their composition with the handler.
-/

set_option maxRecDepth 200000

namespace WW

/-- JS string truthiness based `a || d` for a possibly-absent string field:
the default is used when the field is absent or the empty string. -/
def jsOr (a : Option String) (d : String) : String :=
  match a with
  | some v => if v = "" then d else v
  | none => d

/-- JS `a || b` on two present-or-absent strings, where absence is modelled
as `""` (both `undefined` and `""` are falsy). -/
def jsOrS (a b : String) : String :=
  if a = "" then b else a

/-- Coerce an optional string to the falsy-capable JS form. -/
def optStr (o : Option String) : String := o.getD ""

/-- Helper for `includes`: does `pat` occur in the character list? -/
def containsAux (pat : List Char) : List Char → Bool
  | [] => pat.isEmpty
  | c :: rest => pat.isPrefixOf (c :: rest) || containsAux pat rest

/-- JS `s.includes(pat)` (substring containment). -/
def includes (s pat : String) : Bool :=
  containsAux pat.data s.data

/-- Replace all non-overlapping occurrences of `pat` (nonempty) in a
character list, scanning left to right; the fuel argument (instantiated with
the length of the list, which bounds the number of steps) keeps the
recursion structural. -/
def replaceFuel (pat rep : List Char) : Nat → List Char → List Char
  | 0, s => s
  | _ + 1, [] => []
  | fuel + 1, c :: rest =>
    if pat.isPrefixOf (c :: rest) then
      rep ++ replaceFuel pat rep fuel (rest.drop (pat.length - 1))
    else
      c :: replaceFuel pat rep fuel rest

/-- JS `s.replace(new RegExp(pat, 'g'), rep)` for a literal pattern: every
occurrence is replaced, not just the first.  The patterns used by the
source (`\x7b\x7bname\x7d\x7d`) are never empty and contain no regex
metacharacters, and the replacement values carry no `$` escapes, so the
global regex replace coincides with literal replace-all. -/
def replaceAll (s pat rep : String) : String :=
  if pat.data.isEmpty then s
  else ⟨replaceFuel pat.data rep.data s.data.length s.data⟩

/-- Character-level escaping done by `JSON.stringify` on the string values
serialized into the cache key (quote, backslash and the common control
characters; the claims only rely on the serialization being a deterministic
function of the three serialized fields). -/
def jsonEscape (s : String) : String :=
  s.data.foldl
    (fun acc c =>
      acc ++ (if c = '"' then "\\\""
        else if c = '\\' then "\\\\"
        else if c = '\n' then "\\n"
        else if c = '\r' then "\\r"
        else if c = '\t' then "\\t"
        else String.singleton c)) ""

/-- A JSON string literal. -/
def jsonStr (s : String) : String :=
  "\"" ++ jsonEscape s ++ "\""

/-- `getCacheKey(data)` is `JSON.stringify(data)`; the handler always calls
it on the object literal `\x7bmodel, system, prompt\x7d`, whose keys are
serialized in that fixed order. -/
def getCacheKey (model system prompt : String) : String :=
  "\x7b" ++ jsonStr "model" ++ ":" ++ jsonStr model ++ ","
    ++ jsonStr "system" ++ ":" ++ jsonStr system ++ ","
    ++ jsonStr "prompt" ++ ":" ++ jsonStr prompt ++ "\x7d"

/-- `CACHE_TTL = 5 * 60 * 1000` milliseconds. -/
def CACHE_TTL : Nat := 5 * 60 * 1000

/-- One value stored in the cache `Map`: `\x7bdata, timestamp\x7d`. -/
structure CacheEntry where
  data : String
  timestamp : Nat
deriving DecidableEq, Repr

/-- The in-memory cache: a JS `Map` in insertion order. -/
abbrev Cache := List (String × CacheEntry)

/-- `Map.get`. -/
def mapGet : Cache → String → Option CacheEntry
  | [], _ => none
  | e :: t, k => if e.1 = k then some e.2 else mapGet t k

/-- `Map.set`: an existing key is updated in place (its insertion-order
position is kept), a fresh key is appended at the end. -/
def mapSet : Cache → String → CacheEntry → Cache
  | [], k, v => [(k, v)]
  | e :: t, k, v => if e.1 = k then (k, v) :: t else e :: mapSet t k v

/-- `Map.delete`: removes the entry with the given key (keys are unique in
a `Map`, so at most one entry is removed). -/
def mapDelete : Cache → String → Cache
  | [], _ => []
  | e :: t, k => if e.1 = k then t else e :: mapDelete t k

/-- `getFromCache(key)`: returns the stored data if it is fresh
(`Date.now() - cached.timestamp < CACHE_TTL`); otherwise deletes the key
and returns `null`.  The cache state after the call is returned as well. -/
def getFromCache (c : Cache) (key : String) (now : Nat) : Option String × Cache :=
  match mapGet c key with
  | some e =>
    if now - e.timestamp < CACHE_TTL then (some e.data, c)
    else (none, mapDelete c key)
  | none => (none, mapDelete c key)

/-- `setCache(key, data)`: stores `\x7bdata, timestamp: Date.now()\x7d`, then,
if the size now exceeds 1000, deletes the first 500 keys in insertion
order (`Array.from(cache.keys()).slice(0, 500)`). -/
def setCache (c : Cache) (key data : String) (now : Nat) : Cache :=
  let c1 := mapSet c key ⟨data, now⟩
  if c1.length > 1000 then c1.drop 500 else c1

/-- A workflow node as the handler reads it: `id`, `type` and the optional
`data.inputName` field (the only `data` field the backend consults). -/
structure Node where
  id : String
  type : String
  inputName : Option String
deriving DecidableEq, Repr

/-- A workflow edge: `source` and `target` node ids (the optional `id` and
the handle fields are never read by the backend). -/
structure Edge where
  source : String
  target : String
deriving DecidableEq, Repr

/-- The request-supplied `llmConfig` after Joi validation (each field
optional; Joi guarantees present string fields are non-empty trimmed
strings, and fills `model`/`system` defaults that coincide with the
handler's own `||` defaults). -/
structure LLMConfig where
  model : Option String
  system : Option String
  prompt : Option String
  apiKey : Option String
deriving DecidableEq, Repr

/-- The body of `POST /run-workflow` after Joi validation.  `inputs` keeps
`Object.entries` order (JS object insertion order). -/
structure ExecutionRequest where
  nodes : List Node
  edges : List Edge
  inputs : List (String × String)
  llmConfig : Option LLMConfig
deriving DecidableEq, Repr

/-- `nodes.filter(node => node.type === 'customInput')`. -/
def inputNodesOf (r : ExecutionRequest) : List Node :=
  r.nodes.filter (fun n => n.type == "customInput")

/-- `nodes.filter(node => node.type === 'customOutput')`. -/
def outputNodesOf (r : ExecutionRequest) : List Node :=
  r.nodes.filter (fun n => n.type == "customOutput")

/-- `llmConfig?.system || 'You are a helpful assistant.'`. -/
def systemTemplateOf (r : ExecutionRequest) : String :=
  jsOr (r.llmConfig.bind LLMConfig.system) "You are a helpful assistant."

/-- `llmConfig?.prompt || ''`. -/
def userTemplateOf (r : ExecutionRequest) : String :=
  jsOr (r.llmConfig.bind LLMConfig.prompt) ""

/-- `llmConfig?.model || 'gemini-2.0-flash-exp'`. -/
def modelOf (r : ExecutionRequest) : String :=
  jsOr (r.llmConfig.bind LLMConfig.model) "gemini-2.0-flash-exp"

/-- One iteration of the `Object.entries(inputs).forEach` substitution loop:
if the entry's node id names an input node, both prompts have every
`\x7b\x7bname\x7d\x7d` occurrence replaced by the value (the logical name is
`data?.inputName || nodeId`), and then, if the user prompt no longer
contains placeholder syntax, it is replaced wholesale by this entry's
value. -/
def substStep (inputNodes : List Node) (acc : String × String) (entry : String × String) :
    String × String :=
  match inputNodes.find? (fun n => n.id == entry.1) with
  | some inputNode =>
    let name := jsOr inputNode.inputName entry.1
    let pat := "\x7b\x7b" ++ name ++ "\x7d\x7d"
    let sys := replaceAll acc.1 pat entry.2
    let user := replaceAll acc.2 pat entry.2
    (sys, if includes user "\x7b\x7b" then user else entry.2)
  | none => acc

/-- The whole substitution loop, starting from the two templates. -/
def resolvePrompts (systemTemplate userTemplate : String) (inputNodes : List Node)
    (inputs : List (String × String)) : String × String :=
  inputs.foldl (substStep inputNodes) (systemTemplate, userTemplate)

/-- The system prompt the handler ends up with for a request. -/
def resolvedSystem (r : ExecutionRequest) : String :=
  (resolvePrompts (systemTemplateOf r) (userTemplateOf r) (inputNodesOf r) r.inputs).1

/-- The user prompt the handler ends up with for a request. -/
def resolvedUser (r : ExecutionRequest) : String :=
  (resolvePrompts (systemTemplateOf r) (userTemplateOf r) (inputNodesOf r) r.inputs).2

/-- The cache key the handler computes:
`getCacheKey(\x7bmodel: llmConfig?.model || default, system: systemPrompt,
prompt: userPrompt\x7d)` — the API key is not an argument. -/
def usedCacheKey (r : ExecutionRequest) : String :=
  getCacheKey (modelOf r) (resolvedSystem r) (resolvedUser r)

/-- `llmConfig?.apiKey || process.env.GOOGLE_API_KEY`, with absence and the
empty string both falsy; the result `""` means no key is available. -/
def resolveApiKey (r : ExecutionRequest) (envKey : Option String) : String :=
  jsOrS (optStr (r.llmConfig.bind LLMConfig.apiKey)) (optStr envKey)

/-- The catch-block status mapping of the `/run-workflow` handler:
`error.message.includes('API key') ? 401 : ... 'Validation' ? 400 :
... 'Gemini API' ? 502 : 500`. -/
def statusFor (msg : String) : Nat :=
  if includes msg "API key" then 401
  else if includes msg "Validation" then 400
  else if includes msg "Gemini API" then 502
  else 500

/-- The observable outcome of one `/run-workflow` request: HTTP status,
`success` flag, the `outputs` mapping, the error message (if any), the
cache state afterwards, and how many times `callGeminiAPI` was invoked. -/
structure RunResult where
  status : Nat
  success : Bool
  outputs : List (String × String)
  errMsg : Option String
  cache : Cache
  upstreamCalls : Nat
deriving DecidableEq, Repr

/-- A `throw new Error(msg)` caught by the handler's catch block. -/
def errorResult (msg : String) (c : Cache) : RunResult :=
  ⟨statusFor msg, false, [], some msg, c, 0⟩

/-- The `/run-workflow` handler function itself — the code between the
`validateWithJoi(workflowSchema)` middleware and the catch block — on a
request that reached it.  The handler's own
`!nodes || !Array.isArray(nodes)` probe cannot fire on a typed request
(the field is a list).  `upstream` is the outcome `callGeminiAPI` would
produce if invoked (its returned text, or the message of the error it
throws).  The validation middleware in front of this handler is modelled
separately by `joiAccepts`/`joiSanitize`, composed in
`runWorkflowEndpoint`. -/
def runWorkflow (envKey : Option String) (c : Cache) (now : Nat)
    (upstream : Except String String) (r : ExecutionRequest) : RunResult :=
  if (inputNodesOf r).isEmpty then
    errorResult "No input nodes found in workflow" c
  else if (outputNodesOf r).isEmpty then
    errorResult "No output nodes found in workflow" c
  else if resolveApiKey r envKey = "" then
    errorResult "No API key provided. Please set GOOGLE_API_KEY in .env file or provide a personal API key." c
  else
    let key := usedCacheKey r
    let proceed := fun (c1 : Cache) =>
      match upstream with
      | .ok text =>
        ⟨200, true, (outputNodesOf r).map (fun n => (n.id, text)), none,
          setCache c1 key text now, 1⟩
      | .error msg => ⟨statusFor msg, false, [], some msg, c1, 1⟩
    match getFromCache c key now with
    | (some s, c1) =>
      if s = "" then proceed c1
      else ⟨200, true, (outputNodesOf r).map (fun n => (n.id, s)), none, c1, 0⟩
    | (none, c1) => proceed c1

/-! ## The `validateWithJoi(workflowSchema)` middleware -/

/-- `String.prototype.trim`, which Joi's `convert` mode applies to the
`llmConfig` string fields marked `.trim()` (whitespace per
`Char.isWhitespace`; the JS definition covers a slightly larger Unicode
whitespace set, not exercised here). -/
def jsTrim (s : String) : String :=
  ⟨((s.data.dropWhile Char.isWhitespace).reverse.dropWhile Char.isWhitespace).reverse⟩

/-- Trim an optional string field. -/
def trimOpt : Option String → Option String
  | none => none
  | some s => some (jsTrim s)

/-- Joi validity of one node: `id` and `type` are required strings, and
`Joi.string()` rejects the empty string; `data` is an unconstrained
optional object and `position` an optional shape, so neither restricts the
typed embedding. -/
def nodeJoiValid (n : Node) : Bool :=
  n.id != "" && n.type != ""

/-- Joi validity of one edge: `source` and `target` are required non-empty
strings.  (The optional `id`/handle fields, not represented in the typed
embedding, would additionally have to be non-empty strings when
present.) -/
def edgeJoiValid (e : Edge) : Bool :=
  e.source != "" && e.target != ""

/-- Joi validity of one `inputs` entry: a key matching the `Joi.string()`
pattern (non-empty) must carry a valid value — a non-empty string, or a
number/boolean, which enter the typed embedding as their non-empty
stringifications.  An entry with an empty key fails the pattern, counts as
unknown, and is stripped by the `stripUnknown: true` option rather than
rejected. -/
def inputEntryValid (p : String × String) : Bool :=
  p.1 == "" || p.2 != ""

/-- Joi validity of an optional `.trim()`-ed string field of `llmConfig`:
absent, or non-empty after trimming (a present value that trims to the
empty string fails `Joi.string()`; the `.default()` of `model`/`system`
applies only to absent values). -/
def optFieldValid : Option String → Bool
  | none => true
  | some s => jsTrim s != ""

/-- Joi validity of `llmConfig` (the object itself is optional). -/
def cfgJoiValid : Option LLMConfig → Bool
  | none => true
  | some cfg =>
    optFieldValid cfg.model && optFieldValid cfg.system &&
      optFieldValid cfg.prompt && optFieldValid cfg.apiKey

/-- Whether `validateWithJoi(workflowSchema)` accepts the request body:
`nodes` is a non-empty array of valid items, every edge is valid, every
pattern-matched `inputs` entry is valid, and the `llmConfig` fields are
valid.  (A typed request models an `edges` array that is present; an
absent one is validated the same as `[]` and is equally unread by the
handler.) -/
def joiAccepts (r : ExecutionRequest) : Bool :=
  !r.nodes.isEmpty && r.nodes.all nodeJoiValid && r.edges.all edgeJoiValid &&
    r.inputs.all inputEntryValid && cfgJoiValid r.llmConfig

/-- The sanitized `value` Joi substitutes for `req.body` on success
(`req.body = value`): the `llmConfig` string fields are trimmed and the
`model`/`system` defaults filled in (they coincide with the handler's own
`||` defaults), empty-keyed `inputs` entries are stripped as unknown;
`nodes` and `edges` pass through unchanged. -/
def joiSanitize (r : ExecutionRequest) : ExecutionRequest :=
  { r with
    inputs := r.inputs.filter (fun p => p.1 != ""),
    llmConfig := r.llmConfig.map (fun cfg =>
      { model := some ((trimOpt cfg.model).getD "gemini-2.0-flash-exp"),
        system := some ((trimOpt cfg.system).getD "You are a helpful assistant."),
        prompt := trimOpt cfg.prompt,
        apiKey := trimOpt cfg.apiKey }) }

/-- The full `POST /run-workflow` endpoint: on a schema violation
`validateWithJoi` itself answers 400 `'Validation failed'` without
reaching the handler; otherwise the handler runs on the sanitized body. -/
def runWorkflowEndpoint (envKey : Option String) (c : Cache) (now : Nat)
    (upstream : Except String String) (r : ExecutionRequest) : RunResult :=
  if joiAccepts r then runWorkflow envKey c now upstream (joiSanitize r)
  else ⟨400, false, [], some "Validation failed", c, 0⟩

/-- What one HTTP attempt against the Gemini endpoint comes back with:
either a non-ok response (`response.ok` false) carrying its status code and
the parsed error message, or an ok response whose first candidate text is
`text` (`none` when the JSON carries no usable candidate). -/
inductive GeminiResponse where
  | http (status : Nat) (errMsg : String)
  | ok (text : Option String)
deriving DecidableEq, Repr

deriving instance DecidableEq for Except

/-- The outcome of `callGeminiAPI`: the returned text or the thrown error
message, the number of 1-second retry delays that elapsed, and the number
of HTTP attempts made. -/
structure CallOutcome where
  result : Except String String
  delays : Nat
  attempts : Nat
deriving DecidableEq, Repr

/-- `callGeminiAPI(\x7bmodel, system, prompt, apiKey, retries = 2\x7d)`:
`responses i` is what the `i`-th HTTP attempt returns.  On a non-ok
response with status 429 or at least 500 and retries left, it waits one
second and recurses with `retries - 1`; any other non-ok response throws
`'Gemini API error: ' + errorMessage` at once; an ok response returns the
first candidate text, or throws the distinct empty-generation error. -/
def callGeminiAPI (responses : Nat → GeminiResponse) (i retries : Nat) : CallOutcome :=
  match responses i with
  | .http status msg =>
    match retries with
    | r + 1 =>
      if status = 429 ∨ 500 ≤ status then
        let o := callGeminiAPI responses (i + 1) r
        { o with delays := o.delays + 1, attempts := o.attempts + 1 }
      else ⟨.error ("Gemini API error: " ++ msg), 0, 1⟩
    | 0 => ⟨.error ("Gemini API error: " ++ msg), 0, 1⟩
  | .ok none => ⟨.error "No response generated from Gemini API", 0, 1⟩
  | .ok (some t) => ⟨.ok t, 0, 1⟩

/-! ## The graph validator (`checkIfDAG`, used only by `POST /pipelines/parse`) -/

/-- The adjacency object `adj`, with keys in JS-object insertion order. -/
abbrev Adj := List (String × List String)

/-- Read `adj[k]` (absent key gives `none`, the handler then uses `|| []`). -/
def adjGet : Adj → String → Option (List String)
  | [], _ => none
  | e :: t, k => if e.1 = k then some e.2 else adjGet t k

/-- `adj[k] = []`: resets an existing key (keeping its position) or adds
the key at the end. -/
def adjInit : Adj → String → Adj
  | [], k => [(k, [])]
  | e :: t, k => if e.1 = k then (k, []) :: t else e :: adjInit t k

/-- `if (adj[edge.source]) adj[edge.source].push(edge.target)`: appends to
the adjacency list of an existing key; edges from unknown sources are
dropped. -/
def adjPush : Adj → String → String → Adj
  | [], _, _ => []
  | e :: t, s, tgt => if e.1 = s then (e.1, e.2 ++ [tgt]) :: t else e :: adjPush t s tgt

/-- Builds `adj`: every node id becomes a key with an empty list, then each
edge with a known source id pushes its target. -/
def buildAdj (nodes : List Node) (edges : List Edge) : Adj :=
  edges.foldl (fun m e => adjPush m e.source e.target)
    (nodes.foldl (fun m n => adjInit m n.id) [])

/-- The recursive `hasCycle(nodeId)` of `checkIfDAG`, with the shared
`visited` set threaded through and the `recStack` set passed down the call
path (the source restores `recStack` exactly on every `false` return, and
a `true` return aborts the whole check, so the current call path is the
entire live content of `recStack`).  The fuel argument keeps the recursion
structural; `checkIfDAG` supplies more fuel than the recursion can consume
(each nested call first marks a previously unvisited id, of which there are
at most `nodes.length + edges.length`), and exhaustion conservatively
reports a cycle. -/
def hasCycle (adj : Adj) : Nat → String → List String → List String → Bool × List String
  | 0, _, visited, _ => (true, visited)
  | fuel + 1, n, visited, recStack =>
    if n ∈ recStack then (true, visited)
    else if n ∈ visited then (false, visited)
    else
      ((adjGet adj n).getD []).foldl
        (fun acc x => if acc.1 then acc else hasCycle adj fuel x acc.2 (n :: recStack))
        (false, n :: visited)

/-- The loop `for (const nodeId of Object.keys(adj)) if (hasCycle(nodeId))
return false; return true`. -/
def dagLoop (adj : Adj) (fuel : Nat) : List String → List String → Bool
  | [], _ => true
  | k :: ks, visited =>
    match hasCycle adj fuel k visited [] with
    | (true, _) => false
    | (false, v) => dagLoop adj fuel ks v

/-- `checkIfDAG(nodes, edges)`. -/
def checkIfDAG (nodes : List Node) (edges : List Edge) : Bool :=
  let adj := buildAdj nodes edges
  dagLoop adj (nodes.length + edges.length + 1) (adj.map Prod.fst) []

/-- The `POST /pipelines/parse` handler body on an already-parsed pipeline
object: reports the counts and `checkIfDAG` — the only call site of the
graph validator; `/run-workflow` never invokes it. -/
def parsePipeline (nodes : List Node) (edges : List Edge) : Nat × Nat × Bool :=
  (nodes.length, edges.length, checkIfDAG nodes edges)

/-- The entries of `inputs` whose node id names an input node — exactly the
iterations of the substitution loop that do something. -/
def matchingInputs (inputNodes : List Node) (inputs : List (String × String)) :
    List (String × String) :=
  inputs.filter (fun p => (inputNodes.find? (fun n => n.id == p.1)).isSome)

/-! ## Concrete data used by witnesses and counterexamples -/

/-- A well-formed demo request: one input node, one output node, a prompt
template using the input's logical name, no request-supplied API key. -/
def rqDemo : ExecutionRequest :=
  ⟨[⟨"i", "customInput", some "topic"⟩, ⟨"o", "customOutput", none⟩], [],
   [("i", "dogs")], some ⟨none, none, some "Tell me about \x7b\x7btopic\x7d\x7d", none⟩⟩

/-- A request whose (non-empty) nodes list contains no input-typed node. -/
def rqNoInput : ExecutionRequest :=
  ⟨[⟨"o", "customOutput", none⟩], [], [], none⟩

/-- The demo request with a request-supplied API key `k` and edge list
`es`. -/
def rqKeyed (k : String) (es : List Edge) : ExecutionRequest :=
  ⟨[⟨"i", "customInput", some "topic"⟩, ⟨"o", "customOutput", none⟩], es,
   [("i", "dogs")], some ⟨none, none, some "Tell me about \x7b\x7btopic\x7d\x7d", some k⟩⟩

/-- A cache holding exactly 1000 entries with distinct one-character keys,
in insertion order `0, 1, ..., 999`. -/
def fullCache : Cache :=
  (List.range 1000).map (fun i => (String.singleton (Char.ofNat i), ⟨"v", 0⟩))

/-- Upstream behaviour for the retry witness: rate-limited twice, then a
successful generation. -/
def gRate : Nat → GeminiResponse :=
  fun i => if i < 2 then .http 429 "rate limited" else .ok (some "generated")

/-- Input nodes of the template counterexample: logical names `a` and `b`. -/
def c7nodes : List Node :=
  [⟨"in1", "customInput", some "a"⟩, ⟨"in2", "customInput", some "b"⟩]

/-- Inputs of the template counterexample: the first value contains literal
placeholder syntax, the second does not. -/
def c7inputs : List (String × String) :=
  [("in1", "x\x7b\x7by"), ("in2", "v2")]

/-! ## Cache map lemmas -/

theorem mapGet_mapSet_self (c : Cache) (k : String) (e : CacheEntry) :
    mapGet (mapSet c k e) k = some e := by
  induction c with
  | nil => simp [mapSet, mapGet]
  | cons hd t ih =>
    by_cases h : hd.1 = k
    · simp [mapSet, h, mapGet]
    · simp [mapSet, h, mapGet, ih]

theorem mapSet_of_not_mem (c : Cache) (k : String) (e : CacheEntry)
    (h : k ∉ c.map Prod.fst) : mapSet c k e = c ++ [(k, e)] := by
  induction c with
  | nil => simp [mapSet]
  | cons hd t ih =>
    simp only [List.map_cons, List.mem_cons] at h
    push_neg at h
    simp [mapSet, Ne.symm h.1, ih h.2]

theorem length_mapSet_of_mem (c : Cache) (k : String) (e : CacheEntry)
    (h : k ∈ c.map Prod.fst) : (mapSet c k e).length = c.length := by
  induction c with
  | nil => simp at h
  | cons hd t ih =>
    by_cases hk : hd.1 = k
    · simp [mapSet, hk]
    · simp only [List.map_cons, List.mem_cons] at h
      rcases h with h | h

      · exact absurd h.symm hk
      · simp [mapSet, hk, ih h]

theorem mapGet_of_not_mem (c : Cache) (k : String) (h : k ∉ c.map Prod.fst) :
    mapGet c k = none := by
  induction c with
  | nil => rfl
  | cons hd t ih =>
    simp only [List.map_cons, List.mem_cons] at h
    push_neg at h
    simp [mapGet, Ne.symm h.1, ih h.2]

theorem mapGet_append_of_not_mem (c₁ c₂ : Cache) (k : String)
    (h : k ∉ c₁.map Prod.fst) : mapGet (c₁ ++ c₂) k = mapGet c₂ k := by
  induction c₁ with
  | nil => rfl
  | cons hd t ih =>
    simp only [List.map_cons, List.mem_cons] at h
    push_neg at h
    simp [mapGet, Ne.symm h.1, ih h.2]

theorem length_mapDelete_le (c : Cache) (k : String) :
    (mapDelete c k).length ≤ c.length := by
  induction c with
  | nil => simp [mapDelete]
  | cons hd t ih =>
    by_cases h : hd.1 = k
    · simp [mapDelete, h]
    · simp only [mapDelete, if_neg h, List.length_cons]
      omega

theorem keys_mapSet_subset (c : Cache) (k : String) (e : CacheEntry) :
    ∀ x ∈ (mapSet c k e).map Prod.fst, x = k ∨ x ∈ c.map Prod.fst := by
  induction c with
  | nil => simp [mapSet]
  | cons hd t ih =>
    intro x hx
    by_cases h : hd.1 = k
    · simp only [mapSet, if_pos h] at hx
      simp only [List.map_cons, List.mem_cons] at hx ⊢
      tauto
    · simp only [mapSet, if_neg h] at hx
      simp only [List.map_cons, List.mem_cons] at hx ⊢
      rcases hx with hx | hx
      · tauto
      · rcases ih x hx with h2 | h2 <;> tauto

theorem nodup_keys_mapSet (c : Cache) (k : String) (e : CacheEntry)
    (h : (c.map Prod.fst).Nodup) : ((mapSet c k e).map Prod.fst).Nodup := by
  induction c with
  | nil => simp [mapSet]
  | cons hd t ih =>
    simp only [List.map_cons, List.nodup_cons] at h
    by_cases hk : hd.1 = k
    · simp only [mapSet, if_pos hk, List.map_cons, List.nodup_cons]
      exact ⟨hk ▸ h.1, h.2⟩
    · simp only [mapSet, if_neg hk, List.map_cons, List.nodup_cons]
      refine ⟨fun hx => ?_, ih h.2⟩
      rcases keys_mapSet_subset t k e hd.1 hx with h2 | h2
      · exact hk h2
      · exact h.1 h2

theorem mapGet_mapDelete_self (c : Cache) (k : String)
    (h : (c.map Prod.fst).Nodup) : mapGet (mapDelete c k) k = none := by
  induction c with
  | nil => rfl
  | cons hd t ih =>
    simp only [List.map_cons, List.nodup_cons] at h
    by_cases hk : hd.1 = k
    · simp only [mapDelete, if_pos hk]
      exact mapGet_of_not_mem t k (hk ▸ h.1)
    · simp only [mapDelete, if_neg hk, mapGet, hk, ite_false]
      exact ih h.2

theorem mapGet_setCache_self (c : Cache) (k v : String) (t : Nat)
    (hlen : c.length ≤ 1000) : mapGet (setCache c k v t) k = some ⟨v, t⟩ := by
  unfold setCache
  by_cases hmem : k ∈ c.map Prod.fst
  · have hl : (mapSet c k ⟨v, t⟩).length = c.length := length_mapSet_of_mem c k _ hmem
    have : ¬ (mapSet c k ⟨v, t⟩).length > 1000 := by omega
    simp only [this, if_false]
    exact mapGet_mapSet_self c k _
  · have heq : mapSet c k ⟨v, t⟩ = c ++ [(k, ⟨v, t⟩)] := mapSet_of_not_mem c k _ hmem
    by_cases hgt : (mapSet c k ⟨v, t⟩).length > 1000
    · simp only [hgt, if_true]
      have hlc : c.length = 1000 := by
        have := heq ▸ hgt
        simp only [List.length_append, List.length_singleton] at this
        omega
      rw [heq, List.drop_append_eq_append_drop]
      have h500 : ¬ k ∈ (c.drop 500).map Prod.fst := by
        intro hx
        exact hmem (List.mem_of_mem_drop ((List.map_drop Prod.fst c 500) ▸ hx))
      rw [mapGet_append_of_not_mem _ _ _ h500]
      simp [hlc, mapGet]
    · simp only [hgt, if_false]
      exact mapGet_mapSet_self c k _

theorem nodup_keys_setCache (c : Cache) (k v : String) (t : Nat)
    (h : (c.map Prod.fst).Nodup) :
    ((setCache c k v t).map Prod.fst).Nodup := by
  unfold setCache
  by_cases hgt : (mapSet c k ⟨v, t⟩).length > 1000
  · simp only [hgt, if_true]
    rw [List.map_drop]
    exact List.Nodup.sublist (List.drop_sublist 500 _) (nodup_keys_mapSet c k _ h)
  · simp only [hgt, if_false]
    exact nodup_keys_mapSet c k _ h

/-! ## C6: cache round-trip and TTL expiry -/

/-- C6: for every key and value, `setCache` followed immediately by
`getFromCache` returns the value (leaving the cache untouched), and once
the 5-minute TTL has elapsed since the set, `getFromCache` reports absent
and the entry is deleted from the map (gone from subsequent lookups).
Hypotheses: the cache is a valid `Map` state (distinct keys) of at most
1000 entries, the bound `setCache` itself maintains. -/
theorem cache_roundtrip_ttl (c : Cache) (k v : String) (t now : Nat)
    (hnd : (c.map Prod.fst).Nodup) (hlen : c.length ≤ 1000) :
    getFromCache (setCache c k v t) k t = (some v, setCache c k v t) ∧
    (t + CACHE_TTL ≤ now →
      (getFromCache (setCache c k v t) k now).1 = none ∧
      mapGet ((getFromCache (setCache c k v t) k now).2) k = none) := by
  have hget := mapGet_setCache_self c k v t hlen
  constructor
  · simp [getFromCache, hget, CACHE_TTL]
  · intro hnow
    have hstale : ¬ (now - t < CACHE_TTL) := by omega
    have hdel : getFromCache (setCache c k v t) k now
        = (none, mapDelete (setCache c k v t) k) := by
      simp [getFromCache, hget, hstale]
    rw [hdel]
    exact ⟨rfl, mapGet_mapDelete_self _ _ (nodup_keys_setCache c k v t hnd)⟩

/-- Witness for C6 at a concrete instance. -/
theorem cache_roundtrip_ttl_witness :
    getFromCache (setCache [] "k" "v" 0) "k" 0 = (some "v", setCache [] "k" "v" 0) ∧
    ((getFromCache (setCache [] "k" "v" 0) "k" CACHE_TTL).1 = none ∧
      mapGet ((getFromCache (setCache [] "k" "v" 0) "k" CACHE_TTL).2) "k" = none) :=
  ⟨(cache_roundtrip_ttl [] "k" "v" 0 CACHE_TTL (by decide) (by decide)).1,
   (cache_roundtrip_ttl [] "k" "v" 0 CACHE_TTL (by decide) (by decide)).2 (by omega)⟩

/-! ## C3: eviction policy of `setCache` -/

/-- C3 counterexample: with exactly 1000 entries before the insert (so the
claim's "entry counts at or below 1000" predicts no eviction and 1001
surviving entries), `setCache` evicts the oldest 500 entries: only 501
remain and the first-inserted key is gone. -/
theorem setCache_below_cap_evicts_cex :
    fullCache.length = 1000 ∧
    (setCache fullCache "zz" "v" 0).length = 501 ∧
    mapGet (setCache fullCache "zz" "v" 0) (String.singleton (Char.ofNat 0)) = none := by
  refine ⟨by decide, by decide, by decide⟩

/-- C3 amended: the capacity check runs after the insert, on the
post-insert size.  If the size after `Map.set` is at most 1000 nothing is
evicted; if it exceeds 1000 (which, from a reachable state of at most 1000
entries, happens exactly when a fresh key is inserted into a full
1000-entry cache) the 500 oldest entries by insertion order are dropped,
501 entries remain, and the newly inserted entry survives. -/
theorem setCache_eviction (c : Cache) (k v : String) (t : Nat)
    (hlen : c.length ≤ 1000) :
    ((mapSet c k ⟨v, t⟩).length ≤ 1000 → setCache c k v t = mapSet c k ⟨v, t⟩) ∧
    (1000 < (mapSet c k ⟨v, t⟩).length →
      setCache c k v t = (mapSet c k ⟨v, t⟩).drop 500 ∧
      (setCache c k v t).length = 501 ∧
      mapGet (setCache c k v t) k = some ⟨v, t⟩) := by
  constructor
  · intro hle
    have : ¬ (mapSet c k ⟨v, t⟩).length > 1000 := by omega
    simp [setCache, this]
  · intro hgt
    have hdrop : setCache c k v t = (mapSet c k ⟨v, t⟩).drop 500 := by
      simp [setCache, hgt]
    refine ⟨hdrop, ?_, mapGet_setCache_self c k v t hlen⟩
    have hfresh : k ∉ c.map Prod.fst := by
      intro hmem
      have := length_mapSet_of_mem c k ⟨v, t⟩ hmem
      omega
    have heq := mapSet_of_not_mem c k ⟨v, t⟩ hfresh
    have h1 : (mapSet c k ⟨v, t⟩).length = c.length + 1 := by
      rw [heq]; simp
    rw [hdrop, List.length_drop]
    omega

/-- Witness for C3's amended theorem: inserting a fresh key into the
full 1000-entry cache drops the oldest 500 and keeps the new entry. -/
theorem setCache_eviction_witness :
    setCache fullCache "zz" "v" 0 = (mapSet fullCache "zz" ⟨"v", 0⟩).drop 500 ∧
    (setCache fullCache "zz" "v" 0).length = 501 ∧
    mapGet (setCache fullCache "zz" "v" 0) "zz" = some ⟨"v", 0⟩ :=
  (setCache_eviction fullCache "zz" "v" 0 (by decide)).2 (by decide)

/-! ## C5: the cache key never includes the API key -/

/-- C5: the cache key the handler uses is a deterministic function of
exactly the model, the resolved system prompt and the resolved user
prompt: any two requests agreeing on those three values get the identical
key, and in particular changing only `llmConfig.apiKey` (keeping every
other field) never changes the key. -/
theorem cacheKey_excludes_apiKey :
    (∀ r₁ r₂ : ExecutionRequest, modelOf r₁ = modelOf r₂ →
      resolvedSystem r₁ = resolvedSystem r₂ → resolvedUser r₁ = resolvedUser r₂ →
      usedCacheKey r₁ = usedCacheKey r₂) ∧
    (∀ (r : ExecutionRequest) (k : Option String),
      usedCacheKey
        { r with llmConfig := r.llmConfig.map (fun cfg => { cfg with apiKey := k }) }
        = usedCacheKey r) := by
  constructor
  · intro r₁ r₂ h1 h2 h3
    unfold usedCacheKey
    rw [h1, h2, h3]
  · intro r k
    obtain ⟨nodes, edges, inputs, cfg⟩ := r
    cases cfg with
    | none => rfl
    | some c => cases c; rfl

/-- Witness for C5: two requests identical except for the API key (and the
edge list) produce the same cache key. -/
theorem cacheKey_excludes_apiKey_witness :
    usedCacheKey (rqKeyed "KEY-A" []) = usedCacheKey (rqKeyed "KEY-B" [⟨"x", "y"⟩]) :=
  cacheKey_excludes_apiKey.1 (rqKeyed "KEY-A" []) (rqKeyed "KEY-B" [⟨"x", "y"⟩])
    rfl rfl rfl

/-! ## C1: execution requests without input or output nodes -/

/-- C1 counterexample: a schema-valid request with no input-typed node is
answered with status 500, not with the claimed BadRequest-equivalent 400
(the thrown message `'No input nodes found in workflow'` matches none of
the catch block's message probes); the upstream client is still never
invoked. -/
theorem missing_input_not_badrequest_cex :
    (runWorkflowEndpoint (some "KEY") [] 0 (.ok "x") rqNoInput).status = 500 ∧
    ¬ (runWorkflowEndpoint (some "KEY") [] 0 (.ok "x") rqNoInput).status = 400 ∧
    (runWorkflowEndpoint (some "KEY") [] 0 (.ok "x") rqNoInput).upstreamCalls = 0 := by
  refine ⟨by decide, by decide, by decide⟩

/-- C1 amended: a request with zero input-typed nodes (or zero output-typed
nodes) always gets a failure response from `/run-workflow`, and
`callGeminiAPI` is never invoked; but the status is 400 exactly when
`validateWithJoi` rejects the request on other grounds, while a
schema-valid request lacking input or output nodes is answered with 500,
because the handler's thrown messages contain none of the substrings the
status mapping probes for. -/
theorem missing_io_rejected (r : ExecutionRequest) (envKey : Option String) (c : Cache)
    (now : Nat) (up : Except String String)
    (h : (inputNodesOf r).isEmpty = true ∨ (outputNodesOf r).isEmpty = true) :
    (runWorkflowEndpoint envKey c now up r).success = false ∧
    (runWorkflowEndpoint envKey c now up r).status
      = (if joiAccepts r then 500 else 400) ∧
    (runWorkflowEndpoint envKey c now up r).upstreamCalls = 0 := by
  by_cases hacc : joiAccepts r = true
  · have hins : inputNodesOf (joiSanitize r) = inputNodesOf r := rfl
    have houts : outputNodesOf (joiSanitize r) = outputNodesOf r := rfl
    by_cases hin : (inputNodesOf r).isEmpty = true
    · have hs : statusFor "No input nodes found in workflow" = 500 := by decide
      simp [runWorkflowEndpoint, hacc, runWorkflow, hins, hin, errorResult, hs]
    · have hin' : (inputNodesOf r).isEmpty = false := by simpa using hin
      have hout : (outputNodesOf r).isEmpty = true := by
        rcases h with h | h
        · exact absurd h hin
        · exact h
      have hs : statusFor "No output nodes found in workflow" = 500 := by decide
      simp [runWorkflowEndpoint, hacc, runWorkflow, hins, houts, hin', hout,
        errorResult, hs]
  · simp [runWorkflowEndpoint, hacc]

/-- Witness for C1's amended theorem at a concrete request. -/
theorem missing_io_rejected_witness :
    (runWorkflowEndpoint (some "KEY") [] 0 (.ok "x") rqNoInput).success = false ∧
    (runWorkflowEndpoint (some "KEY") [] 0 (.ok "x") rqNoInput).status
      = (if joiAccepts rqNoInput then 500 else 400) ∧
    (runWorkflowEndpoint (some "KEY") [] 0 (.ok "x") rqNoInput).upstreamCalls = 0 :=
  missing_io_rejected rqNoInput (some "KEY") [] 0 (.ok "x") (Or.inl (by decide))

/-! ## C8: missing API key -/

/-- C2 counterexample: when the first (successful) upstream response is the
empty string, the cached value is falsy, so the identical second request
within the TTL is treated as a cache miss: it makes one upstream call, and
its outputs follow the second upstream response instead of the first. -/
theorem idempotent_empty_string_cex :
    (runWorkflow (some "KEY") [] 0 (.ok "") rqDemo).success = true ∧
    (runWorkflow (some "KEY") (runWorkflow (some "KEY") [] 0 (.ok "") rqDemo).cache 1
        (.ok "other") rqDemo).upstreamCalls = 1 ∧
    ¬ (runWorkflow (some "KEY") (runWorkflow (some "KEY") [] 0 (.ok "") rqDemo).cache 1
        (.ok "other") rqDemo).outputs
      = (runWorkflow (some "KEY") [] 0 (.ok "") rqDemo).outputs := by
  refine ⟨by decide, by decide, by decide⟩

/-- C2 amended: for every identical pair of valid execution requests where
the first is a cache miss succeeding upstream with a NON-EMPTY text and the
second arrives within the TTL, the second request's outputs equal the
first's and it makes zero upstream calls (an empty-string response is
cached but fails the handler's truthiness probe, so it does not shortcut
the second call). -/
theorem idempotent_within_ttl (r : ExecutionRequest) (envKey : Option String) (c : Cache)
    (t₀ t₁ : Nat) (s : String) (up₂ : Except String String)
    (hin : (inputNodesOf r).isEmpty = false) (hout : (outputNodesOf r).isEmpty = false)
    (hkey : ¬ resolveApiKey r envKey = "")
    (hmiss : mapGet c (usedCacheKey r) = none)
    (hlen : c.length < 1000)
    (hs : ¬ s = "")
    (ht : t₁ - t₀ < CACHE_TTL) :
    (runWorkflow envKey c t₀ (.ok s) r).success = true ∧
    (runWorkflow envKey c t₀ (.ok s) r).upstreamCalls = 1 ∧
    (runWorkflow envKey (runWorkflow envKey c t₀ (.ok s) r).cache t₁ up₂ r).outputs
      = (runWorkflow envKey c t₀ (.ok s) r).outputs ∧
    (runWorkflow envKey (runWorkflow envKey c t₀ (.ok s) r).cache t₁ up₂ r).upstreamCalls
      = 0 := by
  have hrun1 : runWorkflow envKey c t₀ (.ok s) r =
      ⟨200, true, (outputNodesOf r).map (fun n => (n.id, s)), none,
        setCache (mapDelete c (usedCacheKey r)) (usedCacheKey r) s t₀, 1⟩ := by
    simp [runWorkflow, hin, hout, hkey, getFromCache, hmiss]
  have hlen2 : (mapDelete c (usedCacheKey r)).length ≤ 1000 := by
    have := length_mapDelete_le c (usedCacheKey r)
    omega
  have hget2 : mapGet (setCache (mapDelete c (usedCacheKey r)) (usedCacheKey r) s t₀)
      (usedCacheKey r) = some ⟨s, t₀⟩ :=
    mapGet_setCache_self _ _ _ _ hlen2
  have hrun2 : runWorkflow envKey
      (setCache (mapDelete c (usedCacheKey r)) (usedCacheKey r) s t₀) t₁ up₂ r =
      ⟨200, true, (outputNodesOf r).map (fun n => (n.id, s)), none,
        setCache (mapDelete c (usedCacheKey r)) (usedCacheKey r) s t₀, 0⟩ := by
    simp [runWorkflow, hin, hout, hkey, getFromCache, hget2, ht, hs]
  rw [hrun1]
  rw [show (⟨200, true, (outputNodesOf r).map (fun n => (n.id, s)), none,
        setCache (mapDelete c (usedCacheKey r)) (usedCacheKey r) s t₀, 1⟩ : RunResult).cache
      = setCache (mapDelete c (usedCacheKey r)) (usedCacheKey r) s t₀ from rfl]
  rw [hrun2]
  exact ⟨rfl, rfl, rfl, rfl⟩

/-- Witness for C2's amended theorem at a concrete request pair. -/
theorem idempotent_within_ttl_witness :
    (runWorkflow (some "KEY") [] 0 (.ok "hello") rqDemo).success = true ∧
    (runWorkflow (some "KEY") [] 0 (.ok "hello") rqDemo).upstreamCalls = 1 ∧
    (runWorkflow (some "KEY") (runWorkflow (some "KEY") [] 0 (.ok "hello") rqDemo).cache 1
        (.ok "other") rqDemo).outputs
      = (runWorkflow (some "KEY") [] 0 (.ok "hello") rqDemo).outputs ∧
    (runWorkflow (some "KEY") (runWorkflow (some "KEY") [] 0 (.ok "hello") rqDemo).cache 1
        (.ok "other") rqDemo).upstreamCalls = 0 :=
  idempotent_within_ttl rqDemo (some "KEY") [] 0 1 "hello" (.ok "other")
    (by decide) (by decide) (by decide) (by decide) (by decide) (by decide) (by decide)

/-! ## C4: retry policy of the upstream client -/

theorem callGemini_attempts_le (f : Nat → GeminiResponse) :
    ∀ retries i, (callGeminiAPI f i retries).attempts ≤ retries + 1 := by
  intro retries
  induction retries with
  | zero =>
    intro i
    unfold callGeminiAPI
    cases hf : f i with
    | http status msg => simp
    | ok t => cases t <;> simp
  | succ n ih =>
    intro i
    unfold callGeminiAPI
    cases hf : f i with
    | http status msg =>
      by_cases hc : status = 429 ∨ 500 ≤ status
      · have := ih (i + 1)
        simp only [hc, if_true]
        omega
      · simp [hc]
    | ok t => cases t <;> simp

/-- C4: `callGeminiAPI` retries only on 429 or 5xx, at most 2 extra
attempts with one 1-second delay each: overall at most 3 attempts; a call
hitting 429 twice and then succeeding returns the successful text after
exactly 2 delays and 3 attempts; any other non-success status (e.g. 404)
fails at once with zero delays and a single attempt. -/
theorem gemini_retry_policy :
    (∀ f : Nat → GeminiResponse, (callGeminiAPI f 0 2).attempts ≤ 3) ∧
    (∀ (f : Nat → GeminiResponse) (m₁ m₂ t : String),
      f 0 = .http 429 m₁ → f 1 = .http 429 m₂ → f 2 = .ok (some t) →
      callGeminiAPI f 0 2 = ⟨.ok t, 2, 3⟩) ∧
    (∀ (f : Nat → GeminiResponse) (status : Nat) (m : String),
      f 0 = .http status m → ¬ status = 429 → status < 500 →
      callGeminiAPI f 0 2 = ⟨.error ("Gemini API error: " ++ m), 0, 1⟩) := by
  refine ⟨fun f => callGemini_attempts_le f 2 0, ?_, ?_⟩
  · intro f m₁ m₂ t h0 h1 h2
    have e2 : callGeminiAPI f 2 0 = ⟨.ok t, 0, 1⟩ := by
      unfold callGeminiAPI
      rw [h2]
    have e1 : callGeminiAPI f 1 1 = ⟨.ok t, 1, 2⟩ := by
      unfold callGeminiAPI
      rw [h1]
      simp [e2]
    unfold callGeminiAPI
    rw [h0]
    simp [e1]
  · intro f status m h0 h429 h500
    have hc : ¬ (status = 429 ∨ 500 ≤ status) := by omega
    unfold callGeminiAPI
    rw [h0]
    simp [hc]

/-- Witness for C4 at concrete upstream behaviours. -/
theorem gemini_retry_policy_witness :
    callGeminiAPI gRate 0 2 = ⟨.ok "generated", 2, 3⟩ ∧
    callGeminiAPI (fun _ => .http 404 "not found") 0 2
      = ⟨.error ("Gemini API error: " ++ "not found"), 0, 1⟩ :=
  ⟨gemini_retry_policy.2.1 gRate "rate limited" "rate limited" "generated"
      (by decide) (by decide) (by decide),
   gemini_retry_policy.2.2 (fun _ => .http 404 "not found") 404 "not found"
      rfl (by decide) (by decide)⟩

/-! ## C7: the wholesale user-prompt replacement rule -/

theorem substStep_matched_snd (ns : List Node) (acc : String × String)
    (q : String × String) (h : (ns.find? (fun n => n.id == q.1)).isSome = true) :
    includes (substStep ns acc q).2 "\x7b\x7b" = true ∨ (substStep ns acc q).2 = q.2 := by
  obtain ⟨nd, hnd⟩ := Option.isSome_iff_exists.mp h
  simp only [substStep, hnd]
  by_cases hc : includes
      (replaceAll acc.2 ("\x7b\x7b" ++ jsOr nd.inputName q.1 ++ "\x7d\x7d") q.2)
      "\x7b\x7b" = true
  · left
    simp [hc]
  · right
    simp [hc]

/-- C7 counterexample: with user-prompt template `"t"` (no placeholders at
all, so after substituting every placeholder occurrence no placeholder
syntax remains) and two matching inputs whose first value contains literal
`\x7b\x7b`, the final user prompt is the FIRST entry's value, not the
latest one: the wholesale-replacement check runs per entry, not once after
all substitutions. -/
theorem template_wholesale_cex :
    includes
      (replaceAll (replaceAll "t" "\x7b\x7ba\x7d\x7d" "x\x7b\x7by") "\x7b\x7bb\x7d\x7d" "v2")
      "\x7b\x7b" = false ∧
    (resolvePrompts "s" "t" c7nodes c7inputs).2 = "x\x7b\x7by" ∧
    ¬ (resolvePrompts "s" "t" c7nodes c7inputs).2 = "v2" := by
  refine ⟨by decide, by decide, by decide⟩

/-- C7 amended: the substitution loop applies the wholesale-replacement
check per matching input entry, in order.  Consequently, whenever the FINAL
user prompt contains no placeholder syntax, it equals the value of the
latest matching input entry wholesale; and when no entry matches, the
user-prompt template is kept unchanged. -/
theorem template_wholesale (ns : List Node) :
    ∀ (ins : List (String × String)) (sysT userT : String),
    (matchingInputs ns ins = [] → resolvePrompts sysT userT ns ins = (sysT, userT)) ∧
    (∀ p : String × String, (matchingInputs ns ins).getLast? = some p →
      includes (resolvePrompts sysT userT ns ins).2 "\x7b\x7b" = false →
      (resolvePrompts sysT userT ns ins).2 = p.2) := by
  intro ins
  induction ins with
  | nil =>
    intro sysT userT
    constructor
    · intro _
      rfl
    · intro p hp
      simp [matchingInputs] at hp
  | cons q t ih =>
    intro sysT userT
    by_cases hq : (ns.find? (fun n => n.id == q.1)).isSome = true
    · have hm : matchingInputs ns (q :: t) = q :: matchingInputs ns t := by
        simp [matchingInputs, List.filter_cons, hq]
      have hfold : resolvePrompts sysT userT ns (q :: t)
          = resolvePrompts (substStep ns (sysT, userT) q).1
              (substStep ns (sysT, userT) q).2 ns t := rfl
      constructor
      · intro habs
        rw [hm] at habs
        simp at habs
      · intro p hp hinc
        rw [hm] at hp
        rcases ht : matchingInputs ns t with _ | ⟨m1, mt⟩
        · rw [ht] at hp
          have hpq : p = q := by
            have := hp
            simp at this
            exact this.symm
          have hrest := (ih (substStep ns (sysT, userT) q).1
            (substStep ns (sysT, userT) q).2).1 ht
          rw [hfold, hrest] at hinc ⊢
          rcases substStep_matched_snd ns (sysT, userT) q hq with hA | hB
          · rw [hA] at hinc
            cases hinc
          · rw [hB, hpq]
        · have hp' : (matchingInputs ns t).getLast? = some p := by
            rw [ht] at hp ⊢
            simpa [List.getLast?_cons_cons] using hp
          rw [hfold] at hinc ⊢
          exact (ih (substStep ns (sysT, userT) q).1
            (substStep ns (sysT, userT) q).2).2 p hp' hinc
    · have hnone : ns.find? (fun n => n.id == q.1) = none :=
        Option.not_isSome_iff_eq_none.mp hq
      have hm : matchingInputs ns (q :: t) = matchingInputs ns t := by
        simp [matchingInputs, List.filter_cons, hq]
      have hfold : resolvePrompts sysT userT ns (q :: t)
          = resolvePrompts sysT userT ns t := by
        simp [resolvePrompts, List.foldl_cons, substStep, hnone]
      rw [hm, hfold]
      exact ih sysT userT

/-- Witness for C7's amended theorem: the single-input case of the spec —
the resolved template has no placeholder left, so the user prompt becomes
the input value wholesale. -/
theorem template_wholesale_witness :
    (resolvePrompts "Talk about \x7b\x7btopic\x7d\x7d" "Describe \x7b\x7btopic\x7d\x7d"
      [⟨"in1", "customInput", some "topic"⟩] [("in1", "dogs")]).2 = "dogs" :=
  (template_wholesale [⟨"in1", "customInput", some "topic"⟩] [("in1", "dogs")]
    "Talk about \x7b\x7btopic\x7d\x7d" "Describe \x7b\x7btopic\x7d\x7d").2
    ("in1", "dogs") (by decide) (by decide)

/-! ## C9: DFS cycle detection — lemmas -/

theorem hasCycle_succ (adj : Adj) (fuel : Nat) (n : String) (v rs : List String) :
    hasCycle adj (fuel + 1) n v rs =
      if n ∈ rs then (true, v)
      else if n ∈ v then (false, v)
      else ((adjGet adj n).getD []).foldl
        (fun acc x => if acc.1 then acc else hasCycle adj fuel x acc.2 (n :: rs))
        (false, n :: v) := rfl

theorem hasCycle_true_of_mem_recStack (adj : Adj) (fuel : Nat) (n : String)
    (v rs : List String) (h : n ∈ rs) : (hasCycle adj fuel n v rs).1 = true := by
  cases fuel with
  | zero => rfl
  | succ fuel => rw [hasCycle_succ, if_pos h]

theorem dfs_foldl_of_true (adj : Adj) (fuel : Nat) (rs : List String)
    (l : List String) (acc : Bool × List String) (h : acc.1 = true) :
    l.foldl (fun acc x => if acc.1 then acc else hasCycle adj fuel x acc.2 rs) acc
      = acc := by
  induction l generalizing acc with
  | nil => rfl
  | cons y t ih =>
    rw [List.foldl_cons, if_pos h]
    exact ih acc h

theorem dfs_foldl_mem_true (adj : Adj) (fuel : Nat) (rs : List String) (X : String)
    (hX : ∀ v : List String, (hasCycle adj fuel X v rs).1 = true) :
    ∀ (l : List String) (acc : Bool × List String), X ∈ l →
    (l.foldl (fun acc x => if acc.1 then acc else hasCycle adj fuel x acc.2 rs) acc).1
      = true := by
  intro l
  induction l with
  | nil =>
    intro acc h
    simp at h
  | cons y t ih =>
    intro acc hmem
    rw [List.foldl_cons]
    by_cases ha : acc.1 = true
    · rw [if_pos ha, dfs_foldl_of_true adj fuel rs t acc ha]
      exact ha
    · rw [if_neg ha]
      rcases List.mem_cons.mp hmem with hy | hy
      · subst hy
        have hv := hX acc.2
        rw [dfs_foldl_of_true adj fuel rs t _ hv]
        exact hv
      · by_cases hr : (hasCycle adj fuel y acc.2 rs).1 = true
        · rw [dfs_foldl_of_true adj fuel rs t _ hr]
          exact hr
        · exact ih _ hy

theorem hasCycle_selfloop_visit (adj : Adj) (X : String)
    (hX : X ∈ (adjGet adj X).getD []) (fuel : Nat) (v rs : List String)
    (hv : X ∉ v) (hr : X ∉ rs) :
    (hasCycle adj (fuel + 1) X v rs).1 = true := by
  rw [hasCycle_succ, if_neg hr, if_neg hv]
  exact dfs_foldl_mem_true adj fuel (X :: rs) X
    (fun v2 => hasCycle_true_of_mem_recStack adj fuel X v2 (X :: rs)
      (List.mem_cons_self X rs))
    _ (false, X :: v) hX

theorem dfs_foldl_false_preserves (adj : Adj) (fuel : Nat) (rs : List String)
    (X : String)
    (ihf : ∀ (n : String) (v rs₂ res : List String),
      hasCycle adj fuel n v rs₂ = (false, res) → X ∉ v → X ∉ res) :
    ∀ (l : List String) (acc : Bool × List String) (res : List String),
      acc.1 = false → X ∉ acc.2 →
      l.foldl (fun acc x => if acc.1 then acc else hasCycle adj fuel x acc.2 rs) acc
        = (false, res) →
      X ∉ res := by
  intro l
  induction l with
  | nil =>
    intro acc res ha hacc h
    rw [List.foldl_nil] at h
    obtain ⟨b, v⟩ := acc
    simp only [Prod.mk.injEq] at h
    rw [← h.2]
    exact hacc
  | cons y t ih =>
    intro acc res ha hacc h
    rw [List.foldl_cons, if_neg (by simp [ha])] at h
    rcases hy : hasCycle adj fuel y acc.2 rs with ⟨b, v2⟩
    rw [hy] at h
    cases b with
    | true =>
      rw [dfs_foldl_of_true adj fuel rs t (true, v2) rfl] at h
      simp at h
    | false =>
      exact ih (false, v2) res rfl (ihf y acc.2 rs v2 hy hacc) h

theorem hasCycle_false_preserves (adj : Adj) (X : String)
    (hX : X ∈ (adjGet adj X).getD []) :
    ∀ (fuel : Nat) (n : String) (v rs res : List String),
      hasCycle adj fuel n v rs = (false, res) → X ∉ v → X ∉ res := by
  intro fuel
  induction fuel with
  | zero =>
    intro n v rs res h hv
    simp [hasCycle] at h
  | succ fuel ih =>
    intro n v rs res h hv
    rw [hasCycle_succ] at h
    by_cases hr : n ∈ rs
    · rw [if_pos hr] at h
      simp at h
    · rw [if_neg hr] at h
      by_cases hn : n ∈ v
      · rw [if_pos hn] at h
        simp only [Prod.mk.injEq] at h
        rw [← h.2]
        exact hv
      · rw [if_neg hn] at h
        by_cases hnX : n = X
        · subst hnX
          exfalso
          have htrue := hasCycle_selfloop_visit adj n hX fuel v rs hn hr
          rw [hasCycle_succ, if_neg hr, if_neg hn] at htrue
          rw [h] at htrue
          simp at htrue
        · have hvX : X ∉ (n :: v) := by
            intro hc
            rcases List.mem_cons.mp hc with hc | hc
            · exact hnX hc.symm
            · exact hv hc
          exact dfs_foldl_false_preserves adj fuel (n :: rs) X ih _ (false, n :: v)
            res rfl hvX h

theorem dagLoop_false (adj : Adj) (X : String)
    (hX : X ∈ (adjGet adj X).getD []) (fuel : Nat) :
    ∀ (ks v : List String), X ∈ ks → X ∉ v →
      dagLoop adj (fuel + 1) ks v = false := by
  intro ks
  induction ks with
  | nil =>
    intro v h
    simp at h
  | cons k t ih =>
    intro v hmem hv
    rcases hc : hasCycle adj (fuel + 1) k v [] with ⟨b, v2⟩
    cases b with
    | true => simp [dagLoop, hc]
    | false =>
      by_cases hk : k = X
      · exfalso
        subst hk
        have := hasCycle_selfloop_visit adj k hX fuel v [] hv (by simp)
        rw [hc] at this
        simp at this
      · have hXt : X ∈ t := by
          rcases List.mem_cons.mp hmem with h | h
          · exact absurd h.symm hk
          · exact h
        have hv2 : X ∉ v2 := hasCycle_false_preserves adj X hX (fuel + 1) k v [] v2 hc hv
        simp only [dagLoop, hc]
        exact ih v2 hXt hv2

/-! ## C9: adjacency construction — lemmas -/

theorem mem_keys_adjInit_self (m : Adj) (k : String) :
    k ∈ (adjInit m k).map Prod.fst := by
  induction m with
  | nil => simp [adjInit]
  | cons e t ih =>
    by_cases h : e.1 = k
    · simp [adjInit, h]
    · simp only [adjInit, if_neg h, List.map_cons, List.mem_cons]
      exact Or.inr ih

theorem mem_keys_adjInit_of_mem (m : Adj) (k x : String)
    (h : x ∈ m.map Prod.fst) : x ∈ (adjInit m k).map Prod.fst := by
  induction m with
  | nil => simp at h
  | cons e t ih =>
    simp only [List.map_cons, List.mem_cons] at h
    by_cases he : e.1 = k
    · simp only [adjInit, if_pos he, List.map_cons, List.mem_cons]
      rcases h with h | h
      · exact Or.inl (he ▸ h)
      · exact Or.inr h
    · simp only [adjInit, if_neg he, List.map_cons, List.mem_cons]
      rcases h with h | h
      · exact Or.inl h
      · exact Or.inr (ih h)

theorem mem_keys_nodesFold (nodes : List Node) (X : String) :
    ∀ m₀ : Adj, (X ∈ nodes.map Node.id ∨ X ∈ m₀.map Prod.fst) →
      X ∈ ((nodes.foldl (fun m n => adjInit m n.id) m₀).map Prod.fst) := by
  induction nodes with
  | nil =>
    intro m₀ h
    rcases h with h | h
    · simp at h
    · simpa using h
  | cons nd t ih =>
    intro m₀ h
    rw [List.foldl_cons]
    apply ih
    rcases h with h | h
    · simp only [List.map_cons, List.mem_cons] at h
      rcases h with h | h
      · exact Or.inr (h ▸ mem_keys_adjInit_self m₀ nd.id)
      · exact Or.inl h
    · exact Or.inr (mem_keys_adjInit_of_mem m₀ nd.id X h)

theorem keys_adjPush (m : Adj) (s t : String) :
    (adjPush m s t).map Prod.fst = m.map Prod.fst := by
  induction m with
  | nil => rfl
  | cons e tl ih =>
    by_cases h : e.1 = s
    · simp [adjPush, h]
    · simp [adjPush, h, ih]

theorem keys_edgeFold (edges : List Edge) :
    ∀ m : Adj, ((edges.foldl (fun m e => adjPush m e.source e.target) m).map Prod.fst)
      = m.map Prod.fst := by
  induction edges with
  | nil => intro m; rfl
  | cons e t ih =>
    intro m
    rw [List.foldl_cons, ih, keys_adjPush]

theorem mem_adjGet_adjPush (m : Adj) (Y s t x : String)
    (h : x ∈ (adjGet m Y).getD []) : x ∈ (adjGet (adjPush m s t) Y).getD [] := by
  induction m with
  | nil => simp [adjGet] at h
  | cons e tl ih =>
    by_cases he : e.1 = s
    · by_cases hy : e.1 = Y
      · simp only [adjGet, if_pos hy, Option.getD_some] at h
        simp only [adjPush, if_pos he, adjGet, if_pos hy, Option.getD_some]
        exact List.mem_append_left _ h
      · simp only [adjGet, if_neg hy, Option.getD_some] at h
        simp only [adjPush, if_pos he, adjGet, if_neg hy]
        exact h
    · by_cases hy : e.1 = Y
      · simp only [adjGet, if_pos hy, Option.getD_some] at h
        simp only [adjPush, if_neg he, adjGet, if_pos hy, Option.getD_some]
        exact h
      · simp only [adjGet, if_neg hy] at h
        simp only [adjPush, if_neg he, adjGet, if_neg hy]
        exact ih h

theorem selfloop_pushed (m : Adj) (X : String) (h : X ∈ m.map Prod.fst) :
    X ∈ (adjGet (adjPush m X X) X).getD [] := by
  induction m with
  | nil => simp at h
  | cons e tl ih =>
    by_cases he : e.1 = X
    · simp only [adjPush, if_pos he, adjGet, if_pos he, Option.getD_some]
      exact List.mem_append_right _ (List.mem_singleton.mpr rfl)
    · simp only [List.map_cons, List.mem_cons] at h
      rcases h with h | h
      · exact absurd h.symm he
      · simp only [adjPush, if_neg he, adjGet, if_neg he]
        exact ih h

theorem selfloop_in_edgeFold (edges : List Edge) (X : String) :
    ∀ m : Adj, X ∈ m.map Prod.fst →
      ((⟨X, X⟩ : Edge) ∈ edges ∨ X ∈ (adjGet m X).getD []) →
      X ∈ (adjGet (edges.foldl (fun m e => adjPush m e.source e.target) m) X).getD [] := by
  induction edges with
  | nil =>
    intro m hk h
    rcases h with h | h
    · simp at h
    · simpa using h
  | cons e t ih =>
    intro m hk h
    rw [List.foldl_cons]
    apply ih
    · rw [keys_adjPush]
      exact hk
    · rcases h with h | h
      · rcases List.mem_cons.mp h with he | he
        · right
          rw [← he]
          exact selfloop_pushed m X hk
        · left
          exact he
      · right
        exact mem_adjGet_adjPush m X e.source e.target X h

/-! ## C9: empty edge list — lemmas -/

theorem adjInit_entries_nil (m : Adj) (k0 : String)
    (h : ∀ p ∈ m, p.2 = ([] : List String)) :
    ∀ p ∈ adjInit m k0, p.2 = ([] : List String) := by
  induction m with
  | nil =>
    intro p hp
    simp only [adjInit, List.mem_singleton] at hp
    rw [hp]
  | cons e tl ih =>
    intro p hp
    by_cases he : e.1 = k0
    · simp only [adjInit, if_pos he, List.mem_cons] at hp
      rcases hp with hp | hp
      · rw [hp]
      · exact h p (List.mem_cons_of_mem e hp)
    · simp only [adjInit, if_neg he, List.mem_cons] at hp
      rcases hp with hp | hp
      · exact hp ▸ h e (List.mem_cons_self e tl)
      · exact ih (fun q hq => h q (List.mem_cons_of_mem e hq)) p hp

theorem nodesFold_entries_nil (nodes : List Node) :
    ∀ m₀ : Adj, (∀ p ∈ m₀, p.2 = ([] : List String)) →
      ∀ p ∈ nodes.foldl (fun m n => adjInit m n.id) m₀, p.2 = ([] : List String) := by
  induction nodes with
  | nil =>
    intro m₀ h
    exact h
  | cons nd t ih =>
    intro m₀ h
    rw [List.foldl_cons]
    exact ih (adjInit m₀ nd.id) (adjInit_entries_nil m₀ nd.id h)

theorem adjGet_of_entries_nil (m : Adj)
    (h : ∀ p ∈ m, p.2 = ([] : List String)) (k : String) :
    (adjGet m k).getD [] = [] := by
  induction m with
  | nil => rfl
  | cons e tl ih =>
    by_cases he : e.1 = k
    · simp only [adjGet, if_pos he, Option.getD_some]
      exact h e (List.mem_cons_self e tl)
    · simp only [adjGet, if_neg he]
      exact ih (fun q hq => h q (List.mem_cons_of_mem e hq))

theorem hasCycle_no_neighbors (adj : Adj)
    (hadj : ∀ k, (adjGet adj k).getD [] = []) (fuel : Nat) (n : String)
    (v : List String) : (hasCycle adj (fuel + 1) n v []).1 = false := by
  rw [hasCycle_succ, if_neg (by simp : ¬ n ∈ ([] : List String))]
  by_cases hn : n ∈ v
  · rw [if_pos hn]
  · rw [if_neg hn, hadj n]
    rfl

theorem dagLoop_all_clear (adj : Adj)
    (hadj : ∀ k, (adjGet adj k).getD [] = []) (fuel : Nat) :
    ∀ (ks v : List String), dagLoop adj (fuel + 1) ks v = true := by
  intro ks
  induction ks with
  | nil => intro v; rfl
  | cons k t ih =>
    intro v
    rcases hc : hasCycle adj (fuel + 1) k v [] with ⟨b, v2⟩
    have hb : b = false := by
      have hf := hasCycle_no_neighbors adj hadj fuel k v
      rw [hc] at hf
      exact hf
    subst hb
    simp only [dagLoop, hc]
    exact ih v2

/-! ## C9: the claim -/

/-- C9: `checkIfDAG` returns false for every graph containing a self-loop
edge whose node id appears in the nodes list, and returns true for every
graph with zero edges. -/
theorem dag_selfloop_and_no_edges :
    (∀ (nodes : List Node) (edges : List Edge) (e : Edge),
      e ∈ edges → e.source = e.target → e.source ∈ nodes.map Node.id →
      checkIfDAG nodes edges = false) ∧
    (∀ nodes : List Node, checkIfDAG nodes [] = true) := by
  constructor
  · intro nodes edges e hmem heq hid
    obtain ⟨s, t⟩ := e
    simp only at heq hid
    subst heq
    have hkeys0 : s ∈ ((nodes.foldl (fun m n => adjInit m n.id) []).map Prod.fst) :=
      mem_keys_nodesFold nodes s [] (Or.inl hid)
    have hself : s ∈ (adjGet (buildAdj nodes edges) s).getD [] := by
      unfold buildAdj
      exact selfloop_in_edgeFold edges s _ hkeys0 (Or.inl hmem)
    have hkeys : s ∈ (buildAdj nodes edges).map Prod.fst := by
      unfold buildAdj
      rw [keys_edgeFold]
      exact hkeys0
    exact dagLoop_false (buildAdj nodes edges) s hself (nodes.length + edges.length)
      ((buildAdj nodes edges).map Prod.fst) [] hkeys (by simp)
  · intro nodes
    have hadj : ∀ k, (adjGet (buildAdj nodes []) k).getD [] = [] := by
      intro k
      exact adjGet_of_entries_nil (buildAdj nodes [])
        (nodesFold_entries_nil nodes [] (by intro p hp; simp at hp)) k
    exact dagLoop_all_clear (buildAdj nodes []) hadj (nodes.length + 0)
      ((buildAdj nodes []).map Prod.fst) []

/-- Witness for C9 at concrete one-node graphs. -/
theorem dag_selfloop_and_no_edges_witness :
    checkIfDAG [⟨"a", "llm", none⟩] [⟨"a", "a"⟩] = false ∧
    checkIfDAG [⟨"a", "llm", none⟩] [] = true :=
  ⟨dag_selfloop_and_no_edges.1 [⟨"a", "llm", none⟩] [⟨"a", "a"⟩] ⟨"a", "a"⟩
      (List.mem_singleton.mpr rfl) rfl (by decide),
   dag_selfloop_and_no_edges.2 [⟨"a", "llm", none⟩]⟩

/-! ## C10: execution and the edge list -/

/-- C10 counterexample: the `/run-workflow` outcome is NOT independent of
the `edges` field: the Joi schema validates edge items, so a request whose
edges list contains an empty-string source is answered 400
`'Validation failed'`, while the identical request with an empty edges
list succeeds. -/
theorem edges_affect_validation_cex :
    (runWorkflowEndpoint (some "E") [] 0 (.ok "x") (rqKeyed "KEY" [])).success = true ∧
    (runWorkflowEndpoint (some "E") [] 0 (.ok "x")
      (rqKeyed "KEY" [⟨"", "o"⟩])).success = false ∧
    (runWorkflowEndpoint (some "E") [] 0 (.ok "x")
      (rqKeyed "KEY" [⟨"", "o"⟩])).status = 400 := by
  refine ⟨by decide, by decide, by decide⟩

/-- C10 amended: among requests whose edges lists pass schema validation
(every edge has non-empty source and target strings), the `/run-workflow`
outcome — status, success flag, outputs, error message, cache effect and
upstream call count — is the same for any two requests that differ only in
their `edges` lists, including cyclic ones: past validation the handler
never reads `edges`, and `checkIfDAG` is invoked only by the
`/pipelines/parse` endpoint.  Schema validation itself, however, does
inspect `edges` and answers 400 for invalid items. -/
theorem execution_ignores_edges (envKey : Option String) (c : Cache) (now : Nat)
    (up : Except String String) (nodes : List Node) (edges₁ edges₂ : List Edge)
    (inputs : List (String × String)) (cfg : Option LLMConfig)
    (h₁ : edges₁.all edgeJoiValid = true) (h₂ : edges₂.all edgeJoiValid = true) :
    runWorkflowEndpoint envKey c now up ⟨nodes, edges₁, inputs, cfg⟩
      = runWorkflowEndpoint envKey c now up ⟨nodes, edges₂, inputs, cfg⟩ := by
  have hacc : joiAccepts ⟨nodes, edges₁, inputs, cfg⟩
      = joiAccepts ⟨nodes, edges₂, inputs, cfg⟩ := by
    simp [joiAccepts, h₁, h₂]
  by_cases h : joiAccepts ⟨nodes, edges₁, inputs, cfg⟩ = true
  · have h2 : joiAccepts ⟨nodes, edges₂, inputs, cfg⟩ = true := by
      rw [← hacc]
      exact h
    simp only [runWorkflowEndpoint, h, h2, if_true]
    rfl
  · have h2 : ¬ joiAccepts ⟨nodes, edges₂, inputs, cfg⟩ = true := by
      rw [← hacc]
      exact h
    simp only [runWorkflowEndpoint, if_neg h, if_neg h2]

/-- Witness for C10's amended theorem: an empty edges list and a
schema-valid cyclic self-loop edge list give the identical outcome. -/
theorem execution_ignores_edges_witness :
    runWorkflowEndpoint (some "E") [] 0 (.ok "x") (rqKeyed "KEY" [])
      = runWorkflowEndpoint (some "E") [] 0 (.ok "x") (rqKeyed "KEY" [⟨"a", "a"⟩]) :=
  execution_ignores_edges (some "E") [] 0 (.ok "x") _ [] [⟨"a", "a"⟩] _ _
    (by decide) (by decide)

end WW
